import Mathlib

/-!
Verification of the OCI registry client of `src/spec-configuration/containerCollectionsOCI.ts`.

The TypeScript source is shallowly embedded: JavaScript strings become `List Char`
(`Str` below), JavaScript `undefined`-or-value results become `Option`, and each
embedded definition carries a comment pointing at the source lines it translates.
All definitions are executable, so concrete runs of the code can be checked with
`decide`.
-/

namespace ContainerCollectionsOCI

/-- Strings of the TypeScript source are modelled as lists of characters. -/
abbrev Str := List Char

/-- Shorthand turning a Lean string literal into the `Str` model. -/
def str (s : String) : Str := s.data

/-- JavaScript `String.prototype.toLowerCase` on one character, restricted to the
ASCII range used by OCI references: code points 65..90 (`A`..`Z`) move up by 32,
everything else is unchanged. -/
def jsToLower (c : Char) : Char :=
  if 65 ≤ c.toNat && c.toNat ≤ 90 then Char.ofNat (c.toNat + 32) else c

/-- `input.toLowerCase()` (line 140 of the source). -/
def toLowerStr (s : Str) : Str := s.map jsToLower

/-- JavaScript `String.prototype.lastIndexOf` for a single character, as an
optional position. -/
def lastIndexOf? (c : Char) : Str → Option Nat
  | [] => none
  | x :: xs =>
    match lastIndexOf? c xs with
    | some i => some (i + 1)
    | none => if x = c then some 0 else none

/-- JavaScript `String.prototype.lastIndexOf`: `-1` when the character is absent
(lines 142-143 of the source). -/
def lastIndexOf (c : Char) (s : Str) : Int :=
  match lastIndexOf? c s with
  | none => -1
  | some i => (i : Int)

/-- JavaScript `String.prototype.indexOf` for a single character, as an optional
position. -/
def firstIndexOf? (c : Char) : Str → Option Nat
  | [] => none
  | x :: xs => if x = c then some 0 else (firstIndexOf? c xs).map (· + 1)

/-- JavaScript `String.prototype.indexOf`: `-1` when the character is absent
(line 268 of the source). -/
def firstIndexOf (c : Char) (s : Str) : Int :=
  match firstIndexOf? c s with
  | none => -1
  | some i => (i : Int)

/-- JavaScript `String.prototype.split` with a one-character separator: `n`
occurrences of the separator yield `n + 1` (possibly empty) parts (lines 154 and
193 of the source). -/
def splitOnChar (c : Char) : Str → List Str
  | [] => [[]]
  | x :: xs =>
    match splitOnChar c xs with
    | [] => [[x]]
    | h :: t => if x = c then [] :: h :: t else (x :: h) :: t

/-- JavaScript `Array.prototype.join('/')` (line 198 of the source). -/
def joinSlash : List Str → Str
  | [] => []
  | [p] => p
  | p :: q :: r => p ++ '/' :: joinSlash (q :: r)

/-- JavaScript `String.prototype.startsWith` (line 268 of the source). -/
def strStartsWith (p s : Str) : Bool := s.take p.length = p

/-- JavaScript truthiness of a `string | undefined` value: `undefined` and the
empty string are falsy. -/
def jsTruthy (a : Option Str) : Bool :=
  match a with
  | some s => s ≠ []
  | none => false

/-- JavaScript `a || b` on `string | undefined` values. -/
def jsOr (a b : Option Str) : Option Str := if jsTruthy a then a else b

/-- Characters matched by `[a-z0-9]` in `regexForPath` (line 108 of the source). -/
def isLowerAl (c : Char) : Bool :=
  (97 ≤ c.toNat && c.toNat ≤ 122) || (48 ≤ c.toNat && c.toNat ≤ 57)

/-- Characters matched by `[._-]` in `regexForPath` (line 108 of the source). -/
def isSepCh (c : Char) : Bool := c = '.' || c = '_' || c = '-'

/-- Characters matched by `[a-zA-Z0-9_]`, the first character class of
`regexForVersionOrDigest` (line 112 of the source). -/
def isVersionHead (c : Char) : Bool :=
  (97 ≤ c.toNat && c.toNat ≤ 122) || (65 ≤ c.toNat && c.toNat ≤ 90) ||
    (48 ≤ c.toNat && c.toNat ≤ 57) || c = '_'

/-- Characters matched by `[a-zA-Z0-9._-]`, the repeated character class of
`regexForVersionOrDigest` (line 112 of the source). -/
def isVersionTail (c : Char) : Bool := isVersionHead c || c = '.' || c = '-'

/-- `regexForVersionOrDigest = /^[a-zA-Z0-9_][a-zA-Z0-9._-]{0,127}$/` (line 112
of the source): a head character followed by at most 127 tail characters. -/
def versionOk (s : Str) : Bool :=
  match s with
  | [] => false
  | c :: rest => isVersionHead c && rest.length ≤ 127 && rest.all isVersionTail

/-- Automaton for one path segment `[a-z0-9]+([._-][a-z0-9]+)*` after its first
character: the flag records whether the previous character was a separator, so
the run must not end on a separator and no two separators may be adjacent. -/
def segAux : Bool → Str → Bool
  | prevSep, [] => !prevSep
  | prevSep, c :: rest =>
    if isLowerAl c then segAux false rest
    else if isSepCh c then !prevSep && segAux true rest
    else false

/-- One path segment: `[a-z0-9]+([._-][a-z0-9]+)*` (from `regexForPath`, line
108 of the source) — nonempty, starts and ends with `[a-z0-9]`, separators
single and internal. -/
def segOk (s : Str) : Bool :=
  match s with
  | [] => false
  | c :: rest => isLowerAl c && segAux false rest

/-- `regexForPath = /^[a-z0-9]+([._-][a-z0-9]+)*(\/[a-z0-9]+([._-][a-z0-9]+)*)*$/`
(line 108 of the source): slash-separated nonempty segments. -/
def pathOk (s : Str) : Bool := (splitOnChar '/' s).all segOk

/-- `OCIRef` (lines 26-37 of the source).  The TypeScript field `namespace` is a
Lean keyword, hence the guillemets. -/
structure OCIRef where
  registry : Str
  owner : Str
  «namespace» : Str
  path : Str
  resource : Str
  id : Str
  version : Str
  tag : Option Str
  digest : Option Str
deriving DecidableEq

/-- First phase of `getRef` (lines 142-186 of the source): determine `resource`,
`tag` and `digest` from the (already lowercased) input.  `none` models the early
`return`s for a malformed digest part.  Note that the source only *logs* when the
part after `sha256:` fails `regexForVersionOrDigest` (lines 165-167) — there is
no `return` there, so that check does not stop the parse. -/
def splitVersion (input : Str) : Option (Str × Option Str × Option Str) :=
  -- the source's locals, inlined:
  --   indexOfLastColon          = input.lastIndexOf(':')
  --   indexOfLastAtCharacter    = input.lastIndexOf('@')
  --   digestWithHashingAlgorithm = input.substring(indexOfLastAtCharacter + 1)
  --   splitOnColon              = digestWithHashingAlgorithm.split(':')
  if lastIndexOf '@' input ≠ -1 then
    if (splitOnChar ':' (input.drop ((lastIndexOf '@' input).toNat + 1))).length ≠ 2 then none
    else if (splitOnChar ':' (input.drop ((lastIndexOf '@' input).toNat + 1))).getD 0 []
        ≠ str "sha256" then none
    else
      some (input.take (lastIndexOf '@' input).toNat, none,
        some (input.drop ((lastIndexOf '@' input).toNat + 1)))
  else
    if lastIndexOf ':' input = -1 ∨ lastIndexOf ':' input < lastIndexOf '/' input then
      some (input, some (str "latest"), none)
    else
      some (input.take (lastIndexOf ':' input).toNat,
        some (input.drop ((lastIndexOf ':' input).toNat + 1)), none)

/-- `getRef` (lines 138-233 of the source).  After `splitVersion`, the tag (when
truthy) must match `regexForVersionOrDigest` (lines 188-191), the resource is
split on `/` into registry, owner, namespace and id (lines 193-200; `owner` is
only observable on success, where the slash count forces it to exist), the path
must match `regexForPath` (lines 202-205), and `version` is
`digest || tag || 'latest'` (line 207). -/
def getRef (input0 : Str) : Option OCIRef :=
  let input := toLowerStr input0
  match splitVersion input with
  | none => none
  | some (resource, tag, digest) =>
    if jsTruthy tag && !versionOk (tag.getD []) then none
    else if !pathOk (joinSlash ((splitOnChar '/' resource).drop 1).dropLast
        ++ '/' :: (splitOnChar '/' resource).getD ((splitOnChar '/' resource).length - 1) [])
    then none
    else
      -- the source's locals, inlined:
      --   splitOnSlash = splitOnChar '/' resource
      --   id           = splitOnSlash[splitOnSlash.length - 1]
      --   owner        = splitOnSlash[1]
      --   registry     = splitOnSlash[0]
      --   namespace    = splitOnSlash.slice(1, -1).join('/')
      --   path         = namespace + '/' + id
      --   version      = digest || tag || 'latest'
      some ⟨(splitOnChar '/' resource).getD 0 [],
            (splitOnChar '/' resource).getD 1 [],
            joinSlash ((splitOnChar '/' resource).drop 1).dropLast,
            joinSlash ((splitOnChar '/' resource).drop 1).dropLast
              ++ '/' :: (splitOnChar '/' resource).getD ((splitOnChar '/' resource).length - 1) [],
            resource,
            (splitOnChar '/' resource).getD ((splitOnChar '/' resource).length - 1) [],
            (jsOr digest (jsOr tag (some (str "latest")))).getD [],
            tag, digest⟩

/-! ### JSON values, `JSON.parse` and `JSON.stringify`

The source calls the JavaScript built-ins `JSON.parse` (line 380) and
`JSON.stringify` (line 304).  They are modelled for the JSON fragment the
registry protocol uses: objects, arrays, strings with the common escapes,
integer numbers, booleans and `null`.  Inputs outside this fragment (number
fractions/exponents, `\u` escapes) make the modelled parser fail where
`JSON.parse` would succeed; the claims never exercise them. -/

/-- A parsed JSON value.  Object fields keep their textual order, as
`JSON.parse` does for string keys. -/
inductive JVal where
  | jnull : JVal
  | jbool : Bool → JVal
  | jnum : Int → JVal
  | jstr : Str → JVal
  | jarr : List JVal → JVal
  | jobj : List (Str × JVal) → JVal

/-- JSON whitespace skipping. -/
def skipWs : Str → Str
  | [] => []
  | c :: rest =>
    if c = ' ' || c = '\n' || c = '\t' || c = '\r' then skipWs rest else c :: rest

/-- Body of a JSON string literal after the opening quote, with the common
escapes. -/
def escChar (c : Char) : Option Char :=
  if c = '"' then some '"'
  else if c = '\\' then some '\\'
  else if c = '/' then some '/'
  else if c = 'n' then some '\n'
  else if c = 't' then some '\t'
  else if c = 'r' then some '\r'
  else if c = 'b' then some (Char.ofNat 8)
  else if c = 'f' then some (Char.ofNat 12)
  else none

/-- Parse the remainder of a JSON string literal (after the opening quote),
returning its contents and the rest of the input. -/
def parseStrBody : Str → Option (Str × Str)
  | [] => none
  | '"' :: r => some ([], r)
  | '\\' :: c :: r =>
    match escChar c with
    | none => none
    | some e => (parseStrBody r).map (fun p => (e :: p.1, p.2))
  | c :: r => (parseStrBody r).map (fun p => (c :: p.1, p.2))

/-- Is `c` an ASCII digit `0`..`9`? -/
def isDigitCh (c : Char) : Bool := 48 ≤ c.toNat && c.toNat ≤ 57

/-- Split a string into its leading run of digits and the rest. -/
def spanDigits : Str → (Str × Str)
  | [] => ([], [])
  | c :: r =>
    if isDigitCh c then
      let p := spanDigits r
      (c :: p.1, p.2)
    else ([], c :: r)

/-- Numeric value of a digit string. -/
def natOfDigits (s : Str) : Nat := s.foldl (fun acc c => acc * 10 + (c.toNat - 48)) 0

/-- Parse a JSON natural number literal (no leading zeros except `0` itself). -/
def parseNatLit (s : Str) : Option (Nat × Str) :=
  match spanDigits s with
  | ([], _) => none
  | (ds, rest) =>
    if 1 < ds.length && ds.getD 0 ' ' = '0' then none
    else some (natOfDigits ds, rest)

/-- Parse a JSON integer literal with optional leading minus. -/
def parseIntLit (s : Str) : Option (Int × Str) :=
  match s with
  | '-' :: r => (parseNatLit r).map (fun p => (-(p.1 : Int), p.2))
  | _ => (parseNatLit s).map (fun p => ((p.1 : Int), p.2))

/-- Does the literal `lit` begin the input?  If so, drop it. -/
def dropLit (lit : Str) (s : Str) : Option Str :=
  if s.take lit.length = lit then some (s.drop lit.length) else none

mutual

/-- Recursive-descent JSON value parser; the fuel only bounds nesting depth and
is in practice never exhausted for `fuel > length input`. -/
def parseVal : Nat → Str → Option (JVal × Str)
  | 0, _ => none
  | fuel + 1, s =>
    match skipWs s with
    | [] => none
    | c :: rest =>
      if c = '"' then (parseStrBody rest).map (fun p => (JVal.jstr p.1, p.2))
      else if c = '[' then
        match skipWs rest with
        | ']' :: r2 => some (JVal.jarr [], r2)
        | _ =>
          match parseItems fuel rest with
          | none => none
          | some (xs, r2) => some (JVal.jarr xs, r2)
      else if c = '\x7b' then
        match skipWs rest with
        | '\x7d' :: r2 => some (JVal.jobj [], r2)
        | _ =>
          match parseFields fuel rest with
          | none => none
          | some (fs, r2) => some (JVal.jobj fs, r2)
      else if c = 't' then (dropLit (str "rue") rest).map (fun r => (JVal.jbool true, r))
      else if c = 'f' then (dropLit (str "alse") rest).map (fun r => (JVal.jbool false, r))
      else if c = 'n' then (dropLit (str "ull") rest).map (fun r => (JVal.jnull, r))
      else (parseIntLit (c :: rest)).map (fun p => (JVal.jnum p.1, p.2))

/-- One or more comma-separated array items, consuming the closing `]`. -/
def parseItems : Nat → Str → Option (List JVal × Str)
  | 0, _ => none
  | fuel + 1, s =>
    match parseVal fuel s with
    | none => none
    | some (v, r) =>
      match skipWs r with
      | ',' :: r2 => (parseItems fuel r2).map (fun p => (v :: p.1, p.2))
      | ']' :: r2 => some ([v], r2)
      | _ => none

/-- One or more comma-separated object fields, consuming the closing brace. -/
def parseFields : Nat → Str → Option (List (Str × JVal) × Str)
  | 0, _ => none
  | fuel + 1, s =>
    match skipWs s with
    | '"' :: r =>
      match parseStrBody r with
      | none => none
      | some (k, r2) =>
        match skipWs r2 with
        | ':' :: r3 =>
          match parseVal fuel r3 with
          | none => none
          | some (v, r4) =>
            match skipWs r4 with
            | ',' :: r5 => (parseFields fuel r5).map (fun p => ((k, v) :: p.1, p.2))
            | '\x7d' :: r5 => some ([(k, v)], r5)
            | _ => none
        | _ => none
    | _ => none

end

/-- `JSON.parse`: a complete value with only trailing whitespace. -/
def jsonParse (s : Str) : Option JVal :=
  match parseVal (s.length + 1) s with
  | none => none
  | some (v, rest) => if skipWs rest = [] then some v else none

/-- `JSON.stringify` escaping inside string literals (the claims only involve
characters that need no escape, plus the common ones implemented here). -/
def escapeStrChars : Str → Str
  | [] => []
  | c :: r =>
    (if c = '"' then ['\\', '"']
     else if c = '\\' then ['\\', '\\']
     else if c = '\n' then ['\\', 'n']
     else if c = '\t' then ['\\', 't']
     else if c = '\r' then ['\\', 'r']
     else [c]) ++ escapeStrChars r

/-- Decimal digits of a natural number (fuel-based so that it reduces by
`decide`). -/
def natDigitsAux : Nat → Nat → Str
  | 0, _ => []
  | fuel + 1, n =>
    if n < 10 then [Char.ofNat (48 + n)]
    else natDigitsAux fuel (n / 10) ++ [Char.ofNat (48 + n % 10)]

/-- Decimal representation of a natural number. -/
def natDigits (n : Nat) : Str := natDigitsAux (n + 1) n

/-- JavaScript decimal representation of an integer. -/
def intStr (n : Int) : Str :=
  if n < 0 then '-' :: natDigits n.natAbs else natDigits n.toNat

mutual

/-- `JSON.stringify` (line 304 of the source): canonical compact serialization,
no added whitespace, object fields in their stored order. -/
def jsonStringify : JVal → Str
  | JVal.jnull => str "null"
  | JVal.jbool true => str "true"
  | JVal.jbool false => str "false"
  | JVal.jnum n => intStr n
  | JVal.jstr s => '"' :: escapeStrChars s ++ ['"']
  | JVal.jarr xs => '[' :: stringifyItems xs ++ [']']
  | JVal.jobj fs => '\x7b' :: stringifyFields fs ++ ['\x7d']

/-- Comma-separated serialization of array items. -/
def stringifyItems : List JVal → Str
  | [] => []
  | [x] => jsonStringify x
  | x :: y :: r => jsonStringify x ++ ',' :: stringifyItems (y :: r)

/-- Comma-separated serialization of object fields. -/
def stringifyFields : List (Str × JVal) → Str
  | [] => []
  | [(k, v)] => '"' :: escapeStrChars k ++ '"' :: ':' :: jsonStringify v
  | (k, v) :: g :: r =>
    ('"' :: escapeStrChars k ++ '"' :: ':' :: jsonStringify v) ++ ',' :: stringifyFields (g :: r)

end

/-- JavaScript property access `v[k]` on a parsed JSON value: `none` models
`undefined`.  `JSON.parse` keeps the last of duplicate keys, hence `getLast?`. -/
def jLookup (v : JVal) (k : Str) : Option JVal :=
  match v with
  | JVal.jobj fields => ((fields.filter (fun p => p.1 = k)).getLast?).map (fun p => p.2)
  | _ => none

/-- JavaScript truthiness of a parsed JSON value (line 283 of the source tests
`!manifestContainer.manifestObj`). -/
def jsTruthyVal : JVal → Bool
  | JVal.jnull => false
  | JVal.jbool b => b
  | JVal.jnum n => n ≠ 0
  | JVal.jstr s => s ≠ []
  | JVal.jarr _ => true
  | JVal.jobj _ => true

/-! ### SHA-256

The source computes `crypto.createHash('sha256').update(text).digest('hex')`
(line 312).  Node's `crypto` implements FIPS 180-4 SHA-256 over the UTF-8 bytes
of the string; the claims only involve ASCII text, where the bytes are the code
points.  The implementation below is the standard one, written with `Nat`
arithmetic modulo `2 ^ 32` and structural recursion so that it evaluates inside
`decide`. -/

/-- Truncation to a 32-bit word. -/
def w32 (n : Nat) : Nat := n % 4294967296

/-- Rotation of a 32-bit word to the right by `n` positions. -/
def rotr (n x : Nat) : Nat := w32 ((x >>> n) ||| (x <<< (32 - n)))

/-- Bitwise complement of a 32-bit word. -/
def notw (x : Nat) : Nat := x ^^^ 4294967295

/-- SHA-256 `Ch`. -/
def shaCh (x y z : Nat) : Nat := (x &&& y) ^^^ (notw x &&& z)

/-- SHA-256 `Maj`. -/
def shaMaj (x y z : Nat) : Nat := (x &&& y) ^^^ (x &&& z) ^^^ (y &&& z)

/-- SHA-256 `Σ0`. -/
def bigSigma0 (x : Nat) : Nat := rotr 2 x ^^^ rotr 13 x ^^^ rotr 22 x

/-- SHA-256 `Σ1`. -/
def bigSigma1 (x : Nat) : Nat := rotr 6 x ^^^ rotr 11 x ^^^ rotr 25 x

/-- SHA-256 `σ0`. -/
def smallSigma0 (x : Nat) : Nat := rotr 7 x ^^^ rotr 18 x ^^^ (x >>> 3)

/-- SHA-256 `σ1`. -/
def smallSigma1 (x : Nat) : Nat := rotr 17 x ^^^ rotr 19 x ^^^ (x >>> 10)

/-- The 64 round constants of SHA-256 (fractional parts of the cube roots of
the first 64 primes), written in decimal. -/
def shaK : List Nat :=
  [1116352408, 1899447441, 3049323471, 3921009573, 961987163, 1508970993, 2453635748,
   2870763221, 3624381080, 310598401, 607225278, 1426881987, 1925078388, 2162078206,
   2614888103, 3248222580, 3835390401, 4022224774, 264347078, 604807628, 770255983,
   1249150122, 1555081692, 1996064986, 2554220882, 2821834349, 2952996808, 3210313671,
   3336571891, 3584528711, 113926993, 338241895, 666307205, 773529912, 1294757372,
   1396182291, 1695183700, 1986661051, 2177026350, 2456956037, 2730485921, 2820302411,
   3259730800, 3345764771, 3516065817, 3600352804, 4094571909, 275423344, 430227734,
   506948616, 659060556, 883997877, 958139571, 1322822218, 1537002063, 1747873779,
   1955562222, 2024104815, 2227730452, 2361852424, 2428436474, 2756734187, 3204031479,
   3329325298]

/-- Working state / hash state: eight 32-bit words. -/
structure ShaState where
  a : Nat
  b : Nat
  c : Nat
  d : Nat
  e : Nat
  f : Nat
  g : Nat
  h : Nat

/-- The initial hash value of SHA-256, in decimal. -/
def shaH0 : ShaState :=
  ⟨1779033703, 3144134277, 1013904242, 2773480762,
   1359893119, 2600822924, 528734635, 1541459225⟩

/-- `k` big-endian bytes of `n`. -/
def beBytes : Nat → Nat → List Nat
  | 0, _ => []
  | k + 1, n => beBytes k (n / 256) ++ [n % 256]

/-- FIPS 180-4 padding: append `0x80`, zero bytes to 56 mod 64, then the bit
length as eight big-endian bytes. -/
def padMsg (m : List Nat) : List Nat :=
  let l := m.length
  let zeros := (119 - l % 64) % 64
  m ++ 0x80 :: List.replicate zeros 0 ++ beBytes 8 (8 * l)

/-- Big-endian grouping of bytes into 32-bit words. -/
def bytesToWords : List Nat → List Nat
  | b0 :: b1 :: b2 :: b3 :: rest => (((b0 * 256 + b1) * 256 + b2) * 256 + b3) :: bytesToWords rest
  | _ => []

/-- Grouping of words into 16-word blocks. -/
def wordsToBlocks : List Nat → List (List Nat)
  | w0 :: w1 :: w2 :: w3 :: w4 :: w5 :: w6 :: w7 ::
      w8 :: w9 :: w10 :: w11 :: w12 :: w13 :: w14 :: w15 :: rest =>
    [w0, w1, w2, w3, w4, w5, w6, w7, w8, w9, w10, w11, w12, w13, w14, w15] :: wordsToBlocks rest
  | _ => []

/-- Message-schedule extension; `acc` holds the words produced so far, newest
first; `n` more words are appended. -/
def schedAux : Nat → List Nat → List Nat
  | 0, acc => acc.reverse
  | n + 1, acc =>
    let g := fun i => acc.getD i 0
    schedAux n (w32 (smallSigma1 (g 1) + g 6 + smallSigma0 (g 14) + g 15) :: acc)

/-- The 64-word message schedule of a 16-word block. -/
def schedule (block : List Nat) : List Nat := schedAux 48 block.reverse

/-- One SHA-256 round. -/
def shaRound (s : ShaState) (k w : Nat) : ShaState :=
  let t1 := w32 (s.h + bigSigma1 s.e + shaCh s.e s.f s.g + k + w)
  let t2 := w32 (bigSigma0 s.a + shaMaj s.a s.b s.c)
  ⟨w32 (t1 + t2), s.a, s.b, s.c, w32 (s.d + t1), s.e, s.f, s.g⟩

/-- Compression of one 16-word block into the running hash state. -/
def compressBlock (h0 : ShaState) (block : List Nat) : ShaState :=
  let s := ((schedule block).zip shaK).foldl (fun s p => shaRound s p.2 p.1) h0
  ⟨w32 (h0.a + s.a), w32 (h0.b + s.b), w32 (h0.c + s.c), w32 (h0.d + s.d),
   w32 (h0.e + s.e), w32 (h0.f + s.f), w32 (h0.g + s.g), w32 (h0.h + s.h)⟩

/-- SHA-256 digest (32 bytes) of a byte sequence. -/
def sha256 (msg : List Nat) : List Nat :=
  let hS := (wordsToBlocks (bytesToWords (padMsg msg))).foldl compressBlock shaH0
  [hS.a, hS.b, hS.c, hS.d, hS.e, hS.f, hS.g, hS.h].foldr (fun w acc => beBytes 4 w ++ acc) []

/-- Lower-case hex digit. -/
def hexDigit (n : Nat) : Char := if n < 10 then Char.ofNat (48 + n) else Char.ofNat (87 + n)

/-- Lower-case hex of one byte. -/
def hexOfByte (b : Nat) : Str := [hexDigit (b / 16), hexDigit (b % 16)]

/-- `crypto.createHash('sha256').update(text).digest('hex')` for ASCII text
(line 312 of the source). -/
def sha256hex (s : Str) : Str := (sha256 (s.map Char.toNat)).foldr (fun b acc => hexOfByte b ++ acc) []

/-! ### `getManifest` and `fetchOCIManifestIfExists` -/

/-- The completed HTTP response consumed by `getJsonWithMimeType` (lines
372-373 of the source); the request plumbing (`url`, accept header,
authentication) produces this value and is otherwise unobservable here. -/
structure Response where
  statusCode : Nat
  resBody : Str
  resHeaders : List (Str × Str)

/-- `ManifestContainer` (lines 72-77 of the source). -/
structure ManifestContainer where
  manifestObj : JVal
  manifestStr : Str
  contentDigest : Str
  canonicalId : Str

/-- JavaScript `resHeaders[k]`: exact-key lookup, `none` for a missing header
(line 310 of the source). -/
def headerLookup (headers : List (Str × Str)) (k : Str) : Option Str :=
  (headers.find? (fun p => p.1 = k)).map (fun p => p.2)

/-- `getJsonWithMimeType` (lines 351-390 of the source): fail on a status above
299, otherwise `JSON.parse` the body (a parse exception is caught and becomes
`undefined`) and return it with the response headers. -/
def getJsonWithMimeType (res : Response) : Option (JVal × List (Str × Str)) :=
  if res.statusCode > 299 then none
  else (jsonParse res.resBody).map (fun v => (v, res.resHeaders))

/-- `getManifest` (lines 297-321 of the source): stringify the parsed body,
prefer a truthy `docker-content-digest` / `Docker-Content-Digest` header, and
otherwise hash the *stringified* body; `canonicalId` is `resource@contentDigest`.
`resource` stands for `ref.resource`. -/
def getManifest (res : Response) (resource : Str) : Option ManifestContainer :=
  match getJsonWithMimeType res with
  | none => none
  | some (body, headers) =>
    let manifestStringified := jsonStringify body
    let headerDigest :=
      jsOr (headerLookup headers (str "docker-content-digest"))
        (headerLookup headers (str "Docker-Content-Digest"))
    let contentDigest :=
      if jsTruthy headerDigest then headerDigest.getD []
      else str "sha256:" ++ sha256hex manifestStringified
    some ⟨body, manifestStringified, contentDigest, resource ++ '@' :: contentDigest⟩

/-- `DEVCONTAINER_MANIFEST_MEDIATYPE` (line 11 of the source). -/
def DEVCONTAINER_MANIFEST_MEDIATYPE : Str := str "application/vnd.devcontainers"

/-- Lines 281-294 of the source: the part of `fetchOCIManifestIfExists` after
the registry guard — fetch the manifest, require a truthy `manifestObj` and
`config.mediaType === DEVCONTAINER_MANIFEST_MEDIATYPE`.  A body whose `config`
is not an object would make the property access throw in JavaScript; the claims
never reach that case and it is collapsed into the failure result here. -/
def fetchAfterGuard (res : Response) (resource : Str) : Option ManifestContainer :=
  match getManifest res resource with
  | none => none
  | some mc =>
    if !jsTruthyVal mc.manifestObj then none
    else
      match jLookup mc.manifestObj (str "config") with
      | none => none
      | some config =>
        match jLookup config (str "mediaType") with
        | some (JVal.jstr mt) => if mt = DEVCONTAINER_MANIFEST_MEDIATYPE then some mc else none
        | _ => none

/-- `fetchOCIManifestIfExists` (lines 263-295 of the source): reject outright
when the registry has no `.` and does not *start with* `localhost` (line 268),
otherwise request the manifest (the URL building of lines 275-280 feeds the HTTP
request whose completed response is the model input `res`). -/
def fetchOCIManifestIfExists (ref : OCIRef) (res : Response) : Option ManifestContainer :=
  if firstIndexOf '.' ref.registry < 0 && !strStartsWith (str "localhost") ref.registry then
    none
  else fetchAfterGuard res ref.resource

/-! ### `getPublishedVersions` -/

/-- The `numeric = /^[0-9]+$/` test of the `semver` package's
`compareIdentifiers`. -/
def isNumericStr (s : Str) : Bool := s ≠ [] && s.all isDigitCh

/-- JavaScript `<` on strings: lexicographic comparison by code units (the
claims restrict tags to ASCII, where code units are the code points). -/
def strLtJS : Str → Str → Bool
  | [], [] => false
  | [], _ :: _ => true
  | _ :: _, [] => false
  | a :: as, b :: bs =>
    if a.toNat < b.toNat then true
    else if b.toNat < a.toNat then false
    else strLtJS as bs

/-- `semver.compareIdentifiers(a, b)` from the `semver` npm package used at
line 437 of the source: if both operands match `/^[0-9]+$/` they are converted
to numbers (modelled exactly — JavaScript float rounding above `2^53` is outside
the claims), then `a === b ? 0 : (anum && !bnum) ? -1 : (bnum && !anum) ? 1 :
a < b ? -1 : 1`; when both are numeric the two middle arms cannot fire. -/
def compareIdentifiers (a b : Str) : Int :=
  if isNumericStr a && isNumericStr b then
    if natOfDigits a = natOfDigits b then 0
    else if natOfDigits a < natOfDigits b then -1 else 1
  else if a = b then 0
  else if isNumericStr a && !isNumericStr b then -1
  else if isNumericStr b && !isNumericStr a then 1
  else if strLtJS a b then -1 else 1

/-- The comparator order `compareIdentifiers a b <= 0` as a relation. -/
def cmpLe (a b : Str) : Prop := compareIdentifiers a b ≤ 0

instance : DecidableRel cmpLe :=
  fun a b => inferInstanceAs (Decidable (compareIdentifiers a b ≤ 0))

/-- `tags.sort((a, b) => semver.compareIdentifiers(a, b))` (lines 435-437 of the
source).  `Array.prototype.sort` is stable by specification and
`compareIdentifiers` is a consistent comparator (it is induced by a total
preorder), so its result is the unique stable ascending reordering, realised
here by Mathlib's insertion sort with the same comparator. -/
def sortTags (tags : List Str) : List Str := List.insertionSort cmpLe tags

/-- Extraction of the `tags` field used by lines 427-437 of the source
(`JSON.parse(body)` followed by `publishedVersionsResponse.tags` and the array
methods `includes` / `filter` / `sort`).  A body that does not parse, or whose
`tags` is not an array of strings, lands in the `catch` of lines 441-444 and
yields `undefined`; the (unexercised) case of an array with non-string elements
is also collapsed here. -/
def parseTagList (body : Str) : Option (List Str) :=
  match jsonParse body with
  | none => none
  | some v =>
    match jLookup v (str "tags") with
    | none => none
    | some tv =>
      match tv with
      | JVal.jarr xs => xs.mapM (fun x => match x with | JVal.jstr s => some s | _ => none)
      | _ => none

/-- `getPublishedVersions` (lines 394-445 of the source), from the completed
tags-list response on: status 404 yields `[]`, any other status above 299 yields
`undefined`, otherwise the body is parsed; without `sorted` the tag list is
returned as is, with `sorted` the literal tag `latest` is removed, the rest is
sorted with `semver.compareIdentifiers`, and `latest` is put back in front when
it was present. -/
def getPublishedVersions (sorted : Bool) (statusCode : Nat) (body : Str) : Option (List Str) :=
  if statusCode = 404 then some []
  else if statusCode > 299 then none
  else
    match parseTagList body with
    | none => none
    | some tags =>
      if !sorted then some tags
      else
        -- the source's locals, inlined:
        --   hasLatest      = tags.includes('latest')
        --   sortedVersions = tags.filter(f => f !== 'latest')
        --                        .sort((a, b) => semver.compareIdentifiers(a, b))
        some (if tags.contains (str "latest")
          then str "latest" :: sortTags (tags.filter (fun f => f ≠ str "latest"))
          else sortTags (tags.filter (fun f => f ≠ str "latest")))

/-! ### `getImageIndexEntryForPlatform` -/

/-- The `platform` part of an image-index entry (lines 89-92 of the source). -/
structure OCIPlatform where
  architecture : Str
  os : Str
deriving DecidableEq

/-- `OCIImageIndexEntry` (lines 85-93 of the source); `platform` is optional
because the source guards the access with `m.platform?.`. -/
structure OCIImageIndexEntry where
  mediaType : Str
  size : Nat
  digest : Str
  platform : Option OCIPlatform
deriving DecidableEq

/-- `mapNodeArchitectureToGOARCH` (lines 116-123 of the source). -/
def mapNodeArchitectureToGOARCH (arch : Str) : Str :=
  if arch = str "x64" then str "amd64" else arch

/-- `mapNodeOSToGOOS` (lines 127-134 of the source). -/
def mapNodeOSToGOOS (os : Str) : Str :=
  if os = str "win32" then str "windows" else os

/-- The predicate of the `find` callback at lines 343-348 of the source
(returning the truthy entry itself models returning `true`). -/
def platformMatches (m : OCIImageIndexEntry) (arch os : Str) : Bool :=
  match m.platform with
  | some p => p.architecture = arch && p.os = os
  | none => false

/-- `getImageIndexEntryForPlatform` (lines 324-349 of the source), from the
parsed image index on (the HTTP/JSON unwrap of lines 326-335 is the same
`getJsonWithMimeType` plumbing modelled for `getManifest`): map the host
architecture and OS to the GOARCH/GOOS vocabulary and return the first entry of
the index whose platform matches both exactly. -/
def getImageIndexEntryForPlatform (manifests : List OCIImageIndexEntry) (arch os : Str) :
    Option OCIImageIndexEntry :=
  manifests.find?
    (fun m => platformMatches m (mapNodeArchitectureToGOARCH arch) (mapNodeOSToGOOS os))

/-! ### Spec-side definition for semantic-version precedence

Used only to *state* the sorting claim, which speaks of "ascending
semantic-version precedence (identifier-wise comparison)".  It follows the
spec's words, not the source. -/

/-- Pairwise numeric comparison of version identifier lists (spec side, see
`specSemverLt`). -/
def specComponentsLt : List Str → List Str → Bool
  | [], [] => false
  | [], _ :: _ => true
  | _ :: _, [] => false
  | x :: xs, y :: ys =>
    if natOfDigits x < natOfDigits y then true
    else if natOfDigits y < natOfDigits x then false
    else specComponentsLt xs ys

/-- Semantic-version precedence on dotted numeric version strings, following
the spec's words: split on `.`, compare the identifiers pairwise numerically
(so a `10` component sorts after a `2` component). -/
def specSemverLt (a b : Str) : Bool :=
  specComponentsLt (splitOnChar '.' a) (splitOnChar '.' b)

/-! ## Helper lemmas -/

theorem char_eq_of_toNat_eq {c₁ c₂ : Char} (h : c₁.toNat = c₂.toNat) : c₁ = c₂ :=
  Char.ext (UInt32.toNat.inj h)

theorem toNat_ofNat_valid (n : Nat) (h : n < 55296) : (Char.ofNat n).toNat = n := by
  rw [Char.ofNat, dif_pos (Or.inl h)]
  simp [Char.ofNatAux, Char.toNat, UInt32.toNat]

theorem jsToLower_of_not_upper {c : Char} (h : ¬(65 ≤ c.toNat ∧ c.toNat ≤ 90)) :
    jsToLower c = c := by
  have hb : (65 ≤ c.toNat && c.toNat ≤ 90) = false := by
    simp only [Bool.and_eq_false_iff, decide_eq_false_iff_not]
    omega
  simp [jsToLower, hb]

theorem jsToLower_toNat_of_upper {c : Char} (h65 : 65 ≤ c.toNat) (h90 : c.toNat ≤ 90) :
    (jsToLower c).toNat = c.toNat + 32 := by
  have hb : (65 ≤ c.toNat && c.toNat ≤ 90) = true := by
    simp only [Bool.and_eq_true, decide_eq_true_eq]
    omega
  simp only [jsToLower, hb, if_true]
  exact toNat_ofNat_valid _ (by omega)

theorem isLowerAl_toNat {c : Char} (h : isLowerAl c = true) :
    (97 ≤ c.toNat ∧ c.toNat ≤ 122) ∨ (48 ≤ c.toNat ∧ c.toNat ≤ 57) := by
  simpa [isLowerAl, Bool.or_eq_true, Bool.and_eq_true, decide_eq_true_eq] using h

theorem jsToLower_of_isLowerAl {c : Char} (h : isLowerAl c = true) : jsToLower c = c :=
  jsToLower_of_not_upper (by rcases isLowerAl_toNat h with h | h <;> omega)

theorem isSepCh_cases {c : Char} (h : isSepCh c = true) : c = '.' ∨ c = '_' ∨ c = '-' := by
  simp only [isSepCh, Bool.or_eq_true, decide_eq_true_eq] at h
  tauto

theorem jsToLower_of_isSepCh {c : Char} (h : isSepCh c = true) : jsToLower c = c := by
  rcases isSepCh_cases h with h | h | h <;> subst h <;> decide

theorem isVersionHead_toNat {c : Char} (h : isVersionHead c = true) :
    (97 ≤ c.toNat ∧ c.toNat ≤ 122) ∨ (65 ≤ c.toNat ∧ c.toNat ≤ 90) ∨
      (48 ≤ c.toNat ∧ c.toNat ≤ 57) ∨ c = '_' := by
  simp only [isVersionHead, Bool.or_eq_true, Bool.and_eq_true, decide_eq_true_eq] at h
  tauto

theorem isVersionHead_jsToLower {c : Char} (h : isVersionHead c = true) :
    isVersionHead (jsToLower c) = true := by
  rcases isVersionHead_toNat h with h' | h' | h' | h'
  · rwa [jsToLower_of_not_upper (by omega)]
  · have ht : (jsToLower c).toNat = c.toNat + 32 := jsToLower_toNat_of_upper h'.1 h'.2
    simp only [isVersionHead, ht, Bool.or_eq_true, Bool.and_eq_true, decide_eq_true_eq]
    left
    omega
  · rwa [jsToLower_of_not_upper (by omega)]
  · subst h'
    decide

theorem isVersionTail_jsToLower {c : Char} (h : isVersionTail c = true) :
    isVersionTail (jsToLower c) = true := by
  simp only [isVersionTail, Bool.or_eq_true, decide_eq_true_eq] at h ⊢
  rcases h with (h | h) | h
  · exact Or.inl (Or.inl (isVersionHead_jsToLower h))
  · subst h
    exact Or.inl (Or.inr (by decide))
  · subst h
    exact Or.inr (by decide)

theorem versionOk_toLower {s : Str} (h : versionOk s = true) :
    versionOk (toLowerStr s) = true := by
  match s with
  | [] => simp [versionOk] at h
  | c :: rest =>
    simp only [versionOk, Bool.and_eq_true, List.all_eq_true, decide_eq_true_eq] at h
    obtain ⟨⟨hc, hlen⟩, hall⟩ := h
    simp only [toLowerStr, List.map_cons, versionOk, Bool.and_eq_true, List.all_eq_true,
      List.length_map, decide_eq_true_eq]
    refine ⟨⟨isVersionHead_jsToLower hc, hlen⟩, ?_⟩
    intro x hx
    obtain ⟨y, hy, rfl⟩ := List.mem_map.mp hx
    exact isVersionTail_jsToLower (hall y hy)

theorem versionOk_ne_nil {s : Str} (h : versionOk s = true) : s ≠ [] := by
  intro hnil
  subst hnil
  simp [versionOk] at h

theorem versionOk_chars {s : Str} (h : versionOk s = true) :
    ∀ c ∈ s, isVersionTail c = true := by
  match s with
  | [] => simp [versionOk] at h
  | c :: rest =>
    simp only [versionOk, Bool.and_eq_true, List.all_eq_true] at h
    intro x hx
    rcases List.mem_cons.mp hx with rfl | hx
    · simp [isVersionTail, h.1.1]
    · exact h.2 x hx

theorem isVersionTail_ne {c : Char} (h : isVersionTail c = true) :
    c ≠ '@' ∧ c ≠ ':' ∧ c ≠ '/' := by
  refine ⟨?_, ?_, ?_⟩ <;> rintro rfl <;> simp [isVersionTail, isVersionHead] at h

theorem segAux_chars {s : Str} :
    ∀ {b : Bool}, segAux b s = true → ∀ c ∈ s, isLowerAl c = true ∨ isSepCh c = true := by
  induction s with
  | nil => intro b _ c hc; simp at hc
  | cons x xs ih =>
    intro b h c hc
    simp only [segAux] at h
    by_cases hx : isLowerAl x = true
    · rw [if_pos hx] at h
      rcases List.mem_cons.mp hc with rfl | hc
      · exact Or.inl hx
      · exact ih h c hc
    · rw [if_neg hx] at h
      by_cases hs : isSepCh x = true
      · rw [if_pos hs] at h
        rw [Bool.and_eq_true] at h
        rcases List.mem_cons.mp hc with rfl | hc
        · exact Or.inr hs
        · exact ih h.2 c hc
      · rw [if_neg hs] at h
        cases h


theorem segOk_chars {s : Str} (h : segOk s = true) :
    ∀ c ∈ s, isLowerAl c = true ∨ isSepCh c = true := by
  match s with
  | [] => simp [segOk] at h
  | x :: xs =>
    rw [segOk, Bool.and_eq_true] at h
    intro c hc
    rcases List.mem_cons.mp hc with rfl | hc
    · exact Or.inl h.1
    · exact segAux_chars h.2 c hc

theorem segOk_ne_nil {s : Str} (h : segOk s = true) : s ≠ [] := by
  intro hnil
  subst hnil
  simp [segOk] at h

theorem segChar_ne {c : Char} (h : isLowerAl c = true ∨ isSepCh c = true) :
    c ≠ '@' ∧ c ≠ ':' ∧ c ≠ '/' := by
  refine ⟨?_, ?_, ?_⟩ <;> rintro rfl <;>
    rcases h with h | h <;> simp [isLowerAl, isSepCh] at h

theorem toLowerStr_fix_of_chars {s : Str} (h : ∀ c ∈ s, jsToLower c = c) :
    toLowerStr s = s := by
  rw [toLowerStr, List.map_congr_left h]
  simp

theorem toLowerStr_fix_of_segOk {s : Str} (h : segOk s = true) : toLowerStr s = s :=
  toLowerStr_fix_of_chars (fun c hc => by
    rcases segOk_chars h c hc with h' | h'
    · exact jsToLower_of_isLowerAl h'
    · exact jsToLower_of_isSepCh h')

theorem lastIndexOf?_eq_none {c : Char} {s : Str} (h : c ∉ s) : lastIndexOf? c s = none := by
  induction s with
  | nil => rfl
  | cons x xs ih =>
    have hx : ¬ x = c := by
      intro hxe
      exact h (by rw [← hxe]; exact List.mem_cons_self x xs)
    rw [lastIndexOf?, ih (fun hc => h (List.mem_cons_of_mem x hc))]
    simp [hx]

theorem lastIndexOf?_append_cons {c : Char} (xs : Str) {ys : Str} (h : c ∉ ys) :
    lastIndexOf? c (xs ++ c :: ys) = some xs.length := by
  induction xs with
  | nil =>
    rw [List.nil_append, lastIndexOf?, lastIndexOf?_eq_none h]
    simp
  | cons x xs ih =>
    rw [List.cons_append, lastIndexOf?, ih]
    rfl

theorem lastIndexOf?_append_of_not_mem {c : Char} (xs : Str) {ys : Str} (h : c ∉ ys) :
    lastIndexOf? c (xs ++ ys) = lastIndexOf? c xs := by
  induction xs with
  | nil =>
    rw [List.nil_append, lastIndexOf?_eq_none h]
    rfl
  | cons x xs ih => rw [List.cons_append, lastIndexOf?, ih, lastIndexOf?]

theorem lastIndexOf?_isSome_iff {c : Char} {s : Str} :
    (lastIndexOf? c s).isSome = true ↔ c ∈ s := by
  induction s with
  | nil => simp [lastIndexOf?]
  | cons x xs ih =>
    rw [lastIndexOf?]
    cases hx : lastIndexOf? c xs with
    | some i =>
      simp only [Option.isSome_some, true_iff]
      exact List.mem_cons_of_mem x (ih.mp (by rw [hx]; rfl))
    | none =>
      by_cases hxc : x = c
      · simp [hxc]
      · rw [if_neg hxc]
        simp only [Option.isSome_none, Bool.false_eq_true, false_iff]
        intro hmem
        rcases List.mem_cons.mp hmem with h | h
        · exact hxc h.symm
        · have := ih.mpr h
          rw [hx] at this
          exact Bool.false_ne_true this

theorem splitOnChar_ne_nil (c : Char) (s : Str) : splitOnChar c s ≠ [] := by
  cases s with
  | nil => simp [splitOnChar]
  | cons x xs =>
    rw [splitOnChar]
    cases splitOnChar c xs with
    | nil => simp
    | cons h t =>
      by_cases hx : x = c
      · simp [hx]
      · simp [hx]

theorem splitOnChar_of_not_mem {c : Char} {s : Str} (h : c ∉ s) : splitOnChar c s = [s] := by
  induction s with
  | nil => rfl
  | cons x xs ih =>
    have hx : ¬ x = c := by
      intro hxe
      exact h (by rw [← hxe]; exact List.mem_cons_self x xs)
    rw [splitOnChar, ih (fun hc => h (List.mem_cons_of_mem x hc))]
    simp [hx]

theorem splitOnChar_append_cons {c : Char} {xs : Str} (h : c ∉ xs) (ys : Str) :
    splitOnChar c (xs ++ c :: ys) = xs :: splitOnChar c ys := by
  induction xs with
  | nil =>
    rw [List.nil_append, splitOnChar]
    cases hsp : splitOnChar c ys with
    | nil => exact absurd hsp (splitOnChar_ne_nil c ys)
    | cons hd tl => simp
  | cons x xs ih =>
    have hx : ¬ x = c := by
      intro hxe
      exact h (by rw [← hxe]; exact List.mem_cons_self x xs)
    rw [List.cons_append, splitOnChar,
      ih (fun hc => h (List.mem_cons_of_mem x hc))]
    simp [hx]

theorem length_splitOnChar (c : Char) (s : Str) :
    (splitOnChar c s).length = s.count c + 1 := by
  induction s with
  | nil => rfl
  | cons x xs ih =>
    rw [splitOnChar]
    cases hsp : splitOnChar c xs with
    | nil => exact absurd hsp (splitOnChar_ne_nil c xs)
    | cons hd tl =>
      rw [hsp] at ih
      show (if x = c then [] :: hd :: tl else (x :: hd) :: tl).length
        = List.count c (x :: xs) + 1
      by_cases hx : x = c
      · rw [if_pos hx]
        subst hx
        rw [List.count_cons_self]
        simp only [List.length_cons] at ih ⊢
        omega
      · rw [if_neg hx]
        simp only [List.length_cons, List.count_cons, beq_iff_eq, if_neg hx] at ih ⊢
        omega

theorem pathOk_cons_slash (xs : Str) : pathOk ('/' :: xs) = false := by
  rw [pathOk, splitOnChar]
  cases hsp : splitOnChar '/' xs with
  | nil => exact absurd hsp (splitOnChar_ne_nil '/' xs)
  | cons hd tl =>
    show ((if '/' = '/' then [] :: hd :: tl else ('/' :: hd) :: tl).all segOk) = false
    rw [if_pos rfl]
    simp [segOk]

theorem dropLast_eq_nil_of_short {α : Type} {l : List α} (h : l.length ≤ 1) :
    l.dropLast = [] := by
  match l with
  | [] => rfl
  | [x] => rfl
  | x :: y :: r => simp at h

/-- Everything `getRef` guarantees about a successfully produced `OCIRef`, in
terms of the `splitVersion` phase. -/
theorem getRef_spec {input : Str} {ref : OCIRef} (h : getRef input = some ref) :
    ∃ res tg dg, splitVersion (toLowerStr input) = some (res, tg, dg)
    ∧ ref.resource = res
    ∧ ref.tag = tg
    ∧ ref.digest = dg
    ∧ ref.id = (splitOnChar '/' res).getD ((splitOnChar '/' res).length - 1) []
    ∧ ref.«namespace» = joinSlash ((splitOnChar '/' res).drop 1).dropLast
    ∧ ref.path = ref.«namespace» ++ '/' :: ref.id
    ∧ pathOk ref.path = true
    ∧ ref.version = (jsOr dg (jsOr tg (some (str "latest")))).getD []
    ∧ (jsTruthy tg && !versionOk (tg.getD [])) = false := by
  rw [getRef] at h
  split at h
  · cases h
  · rename_i res tg dg heq
    refine ⟨res, tg, dg, heq, ?_⟩
    split at h
    · cases h
    · split at h
      · cases h
      · rename_i hval hpath
        rw [Option.some_inj] at h
        subst h
        refine ⟨rfl, rfl, rfl, rfl, rfl, rfl, ?_, rfl, ?_⟩
        · simpa using hpath
        · simpa using hval

theorem jsToLower_eq_at_iff {c : Char} : jsToLower c = '@' ↔ c = '@' := by
  constructor
  · intro h
    by_cases hu : 65 ≤ c.toNat ∧ c.toNat ≤ 90
    · exfalso
      have ht := jsToLower_toNat_of_upper hu.1 hu.2
      rw [h] at ht
      have h64 : ('@' : Char).toNat = 64 := by decide
      omega
    · rwa [jsToLower_of_not_upper hu] at h
  · intro h
    subst h
    decide

theorem mem_at_toLowerStr_iff {s : Str} : '@' ∈ toLowerStr s ↔ '@' ∈ s := by
  rw [toLowerStr]
  constructor
  · intro h
    obtain ⟨c, hc, he⟩ := List.mem_map.mp h
    rwa [← jsToLower_eq_at_iff.mp he]
  · intro h
    have hfix : jsToLower '@' = '@' := by decide
    exact hfix ▸ List.mem_map_of_mem jsToLower h

theorem lastIndexOf_eq_neg_one_iff {c : Char} {s : Str} :
    lastIndexOf c s = -1 ↔ c ∉ s := by
  constructor
  · intro h hmem
    have hs := lastIndexOf?_isSome_iff.mpr hmem
    cases hx : lastIndexOf? c s with
    | none =>
      rw [hx] at hs
      cases hs
    | some i =>
      rw [lastIndexOf, hx] at h
      have h' : (i : Int) = -1 := h
      omega
  · intro h
    rw [lastIndexOf, lastIndexOf?_eq_none h]

/-- Everything `splitVersion` guarantees about its successful results: the
digest branch is taken exactly when the input contains `@`, it produces a
defined nonempty digest and no tag, and the tag branch produces a defined tag
and no digest. -/
theorem splitVersion_spec {input res : Str} {tg dg : Option Str}
    (h : splitVersion input = some (res, tg, dg)) :
    ('@' ∈ input → ∃ d, dg = some d ∧ tg = none ∧ d ≠ [])
    ∧ ('@' ∉ input → dg = none ∧ ∃ t, tg = some t) := by
  rw [splitVersion] at h
  by_cases hmem : '@' ∈ input
  · have hne : ¬ lastIndexOf '@' input = -1 := fun he =>
      lastIndexOf_eq_neg_one_iff.mp he hmem
    rw [if_pos hne] at h
    split at h
    · cases h
    · split at h
      · cases h
      · rename_i hlen2 _
        rw [Option.some_inj, Prod.mk.injEq, Prod.mk.injEq] at h
        obtain ⟨-, htg, hdg⟩ := h
        refine ⟨fun _ => ⟨_, hdg.symm, htg.symm, ?_⟩, fun hno => absurd hmem hno⟩
        intro hnil
        rw [hnil] at hlen2
        simp [splitOnChar] at hlen2
  · have he : lastIndexOf '@' input = -1 := lastIndexOf_eq_neg_one_iff.mpr hmem
    rw [if_neg (by rw [he]; simp)] at h
    refine ⟨fun hyes => absurd hyes hmem, fun _ => ?_⟩
    split at h
    · rw [Option.some_inj, Prod.mk.injEq, Prod.mk.injEq] at h
      obtain ⟨-, htg, hdg⟩ := h
      exact ⟨hdg.symm, _, htg.symm⟩
    · rw [Option.some_inj, Prod.mk.injEq, Prod.mk.injEq] at h
      obtain ⟨-, htg, hdg⟩ := h
      exact ⟨hdg.symm, _, htg.symm⟩

/-- Claim C8 (contrapositive form): every `OCIRef` that `getRef` produces has a
resource containing at least two `/` separators and a nonempty namespace — in
particular, an input whose resource part has fewer than two `/` parses to
`undefined`. -/
theorem c8_namespace_nonempty (input : Str) (ref : OCIRef)
    (h : getRef input = some ref) :
    2 ≤ ref.resource.count '/' ∧ ref.«namespace» ≠ [] := by
  obtain ⟨res, tg, dg, _, hres, _, _, hid, hns, hpath, hpathOk, -⟩ := getRef_spec h
  have hnsne : ref.«namespace» ≠ [] := by
    intro hnil
    rw [hpath, hnil, List.nil_append] at hpathOk
    rw [pathOk_cons_slash] at hpathOk
    cases hpathOk
  refine ⟨?_, hnsne⟩
  have hlen3 : 3 ≤ (splitOnChar '/' res).length := by
    by_contra hlt
    push_neg at hlt
    have hmid : ((splitOnChar '/' res).drop 1).dropLast = [] := by
      apply dropLast_eq_nil_of_short
      rw [List.length_drop]
      omega
    rw [hmid] at hns
    exact hnsne (hns.trans rfl)
  rw [hres]
  have := length_splitOnChar '/' res
  omega

/-- Witness for C8: the concrete successful parse of `ghcr.io/org/feat` has two
slashes in its resource and the nonempty namespace `org`. -/
theorem c8_namespace_nonempty_witness :
    2 ≤ List.count '/' (str "ghcr.io/org/feat") ∧ str "org" ≠ ([] : Str) :=
  c8_namespace_nonempty (str "ghcr.io/org/feat")
    ⟨str "ghcr.io", str "org", str "org", str "org/feat", str "ghcr.io/org/feat",
      str "feat", str "latest", some (str "latest"), none⟩ (by decide)

/-- Claim C9 (amended): every `OCIRef` produced by `getRef` has exactly one of
`tag`/`digest` defined — `digest` is defined iff the input contained `@`,
otherwise `tag` is defined — and `version` equals the digest when the digest is
defined, and otherwise equals the tag when the tag is nonempty and `latest` when
the tag is the empty string (which happens for an input ending in a qualifying
colon). -/
theorem c9_version_fields_amended (input : Str) (ref : OCIRef)
    (h : getRef input = some ref) :
    (ref.digest.isSome = true ↔ '@' ∈ input)
    ∧ (ref.digest.isSome = true →
        ref.tag = none ∧ ∃ d, ref.digest = some d ∧ ref.version = d)
    ∧ (ref.digest = none →
        ∃ t, ref.tag = some t ∧ ref.version = (if t = [] then str "latest" else t)) := by
  obtain ⟨res, tg, dg, hsv, -, htag, hdig, -, -, -, -, hver, -⟩ := getRef_spec h
  obtain ⟨hat, hnoat⟩ := splitVersion_spec hsv
  by_cases hmem : '@' ∈ input
  · obtain ⟨d, hd, htgn, hdne⟩ := hat (mem_at_toLowerStr_iff.mpr hmem)
    subst hd
    refine ⟨?_, ?_, ?_⟩
    · simp [hdig, hmem]
    · intro _
      refine ⟨htag.trans htgn, d, hdig, ?_⟩
      rw [hver, htgn]
      simp [jsOr, jsTruthy, hdne]
    · intro hnone
      rw [hdig] at hnone
      cases hnone
  · obtain ⟨hdgn, t, htg⟩ := hnoat (fun hmm => hmem (mem_at_toLowerStr_iff.mp hmm))
    subst hdgn
    refine ⟨?_, ?_, ?_⟩
    · rw [hdig]
      simp only [Option.isSome_none, Bool.false_eq_true, false_iff]
      exact hmem
    · intro hs
      rw [hdig] at hs
      cases hs
    · intro _
      refine ⟨t, htag.trans htg, ?_⟩
      rw [hver, htg]
      by_cases ht : t = []
      · subst ht
        simp [jsOr, jsTruthy]
      · simp [jsOr, jsTruthy, ht]

/-- Witness for C9 at the concrete digest-form parse of
`ghcr.io/a/b@sha256:abc`. -/
theorem c9_version_fields_amended_witness : '@' ∈ str "ghcr.io/a/b@sha256:abc" := by
  have h := c9_version_fields_amended (str "ghcr.io/a/b@sha256:abc")
    ⟨str "ghcr.io", str "a", str "a", str "a/b", str "ghcr.io/a/b", str "b",
      str "sha256:abc", none, some (str "sha256:abc")⟩ (by decide)
  exact h.1.mp (by decide)

/-- Claim C2 (code bug): for digest-form inputs, the split-length and
`sha256`-literal checks do fail the parse, but the restricted-name grammar check
on the part after `sha256:` does not — the source logs the validation error and
then falls through (missing `return`, lines 165-167), so `.` after `sha256:`
still yields a successful `OCIRef` with digest `sha256:.`, contradicting the
claim and the code's own error message. -/
theorem c2_digest_grammar_code_bug :
    getRef (str "r/o/f@sha256:.")
      = some ⟨str "r", str "o", str "o", str "o/f", str "r/o/f", str "f",
          str "sha256:.", none, some (str "sha256:.")⟩
    ∧ versionOk (str ".") = false := by decide

/-- Claim C9, counterexample: on input `r/o/f:` (qualifying colon with empty
tag) `getRef` succeeds with `tag` defined as the *empty* string while `version`
is `latest`, so `version` does not equal the defined one of `tag`/`digest`. -/
theorem c9_version_fields_counterexample :
    (getRef (str "r/o/f:")).map (fun r => (r.tag, r.digest, r.version))
      = some (some [], none, str "latest")
    ∧ str "latest" ≠ ([] : Str) := by decide

/-- Claim C4, counterexample: the guard tests `startsWith('localhost')`, not
equality, so the registry `localhostx` — which contains no `.` and is not
`localhost` — passes the guard and the fetch proceeds (here: succeeds). -/
theorem c4_registry_guard_counterexample :
    ('.' ∉ str "localhostx") ∧ str "localhostx" ≠ str "localhost"
    ∧ (fetchOCIManifestIfExists
        ⟨str "localhostx", str "a", str "a", str "a/b", str "localhostx/a/b", str "b",
          str "latest", some (str "latest"), none⟩
        ⟨200, str "\x7b\"config\":\x7b\"mediaType\":\"application/vnd.devcontainers\"\x7d\x7d",
          [(str "docker-content-digest", str "sha256:0")]⟩).isSome = true := by decide

/-- Claim C3, counterexample: `semver.compareIdentifiers` treats each whole tag
as one identifier, so dotted versions compare as strings: the sorted output for
tags `10.0.0` and `2.0.0` is `[10.0.0, 2.0.0]`, although `2.0.0` precedes
`10.0.0` in semantic-version precedence — the output is not in ascending
semantic-version order. -/
theorem c3_tag_sort_counterexample :
    getPublishedVersions true 200 (str "\x7b\"tags\":[\"10.0.0\",\"2.0.0\"]\x7d")
      = some [str "10.0.0", str "2.0.0"]
    ∧ specSemverLt (str "2.0.0") (str "10.0.0") = true := by decide

set_option maxRecDepth 40000 in
/-- Claim C1, counterexample: `getManifest` hashes `JSON.stringify(body)` (the
re-serialized object, line 304/312 of the source), not the raw response text —
for the raw body with an extra space the computed digest differs from `sha256`
of the exact raw body text. -/
theorem c1_content_digest_counterexample :
    (getManifest ⟨200, str "\x7b\"a\": 1\x7d", []⟩
        (str "ghcr.io/devcontainers/features/go")).map ManifestContainer.contentDigest
      ≠ some (str "sha256:" ++ sha256hex (str "\x7b\"a\": 1\x7d")) := by decide

/-- Claim C6: for completed responses (status at least 200), among non-2xx
statuses the result is the empty list exactly for 404 ("never published"), any
other non-2xx status is a failure (`undefined`), and any 2xx status yields the
parsed tag list. -/
theorem c6_status_handling (sorted : Bool) (status : Nat) (body : Str) (tags : List Str)
    (h200 : 200 ≤ status) (hp : parseTagList body = some tags) :
    (299 < status → (getPublishedVersions sorted status body = some [] ↔ status = 404))
    ∧ (status = 404 → getPublishedVersions sorted status body = some [])
    ∧ (299 < status → status ≠ 404 → getPublishedVersions sorted status body = none)
    ∧ (status ≤ 299 → getPublishedVersions false status body = some tags) := by
  refine ⟨?_, ?_, ?_, ?_⟩
  · intro hgt
    constructor
    · intro hres
      by_contra hne
      rw [getPublishedVersions, if_neg hne, if_pos hgt] at hres
      cases hres
    · intro h404
      rw [getPublishedVersions, if_pos h404]
  · intro h404
    rw [getPublishedVersions, if_pos h404]
  · intro hgt hne
    rw [getPublishedVersions, if_neg hne, if_pos hgt]
  · intro hle
    have hne : ¬ status = 404 := by omega
    have hngt : ¬ status > 299 := by omega
    rw [getPublishedVersions, if_neg hne, if_neg hngt, hp]
    rfl

/-- Witness for C6: a concrete 404 response yields the empty list. -/
theorem c6_status_handling_witness :
    getPublishedVersions false 404 (str "\x7b\"tags\":[\"1.0.0\"]\x7d") = some [] := by
  have h := c6_status_handling false 404 (str "\x7b\"tags\":[\"1.0.0\"]\x7d")
    [str "1.0.0"] (by omega) (by decide)
  exact h.2.1 rfl

/-- Claim C10: with `sorted = false` (the default), a 2xx response yields the
parsed tag list exactly as received — no filtering or reordering, so a `latest`
tag keeps its original position. -/
theorem c10_unsorted_identity (status : Nat) (body : Str) (tags : List Str)
    (h200 : 200 ≤ status) (h299 : status ≤ 299) (hp : parseTagList body = some tags) :
    getPublishedVersions false status body = some tags := by
  have hne : ¬ status = 404 := by omega
  have hngt : ¬ status > 299 := by omega
  rw [getPublishedVersions, if_neg hne, if_neg hngt, hp]
  rfl

/-- Witness for C10: a concrete 200 response returns the raw tag list with
`latest` still in the middle. -/
theorem c10_unsorted_identity_witness :
    getPublishedVersions false 200 (str "\x7b\"tags\":[\"1.0.0\",\"latest\",\"0.9.0\"]\x7d")
      = some [str "1.0.0", str "latest", str "0.9.0"] :=
  c10_unsorted_identity 200 (str "\x7b\"tags\":[\"1.0.0\",\"latest\",\"0.9.0\"]\x7d")
    [str "1.0.0", str "latest", str "0.9.0"] (by omega) (by omega) (by decide)

theorem find?_first_match {α : Type} {p : α → Bool} {l : List α} {e : α}
    (h : l.find? p = some e) :
    p e = true ∧ ∃ l1 l2, l = l1 ++ e :: l2 ∧ ∀ m ∈ l1, p m = false := by
  induction l with
  | nil => cases h
  | cons x xs ih =>
    rw [List.find?] at h
    cases hp : p x with
    | true =>
      rw [hp] at h
      rw [Option.some_inj] at h
      subst h
      exact ⟨hp, [], xs, rfl, by simp⟩
    | false =>
      rw [hp] at h
      obtain ⟨hpe, l1, l2, heq, hall⟩ := ih h
      refine ⟨hpe, x :: l1, l2, by rw [heq, List.cons_append], ?_⟩
      intro m hm
      rcases List.mem_cons.mp hm with rfl | hm
      · exact hp
      · exact hall m hm

/-- Claim C7: the host-to-GOARCH/GOOS maps send `x64` to `amd64` and `win32` to
`windows` and leave every other name unchanged, and
`getImageIndexEntryForPlatform` returns exactly the first index entry whose
platform architecture and OS both equal the mapped values — absence (`none`)
exactly when no entry matches. -/
theorem c7_platform_selection :
    mapNodeArchitectureToGOARCH (str "x64") = str "amd64"
    ∧ mapNodeOSToGOOS (str "win32") = str "windows"
    ∧ (∀ arch, arch ≠ str "x64" → mapNodeArchitectureToGOARCH arch = arch)
    ∧ (∀ os, os ≠ str "win32" → mapNodeOSToGOOS os = os)
    ∧ (∀ manifests arch os,
        (getImageIndexEntryForPlatform manifests arch os = none
          ↔ ∀ m ∈ manifests,
              platformMatches m (mapNodeArchitectureToGOARCH arch) (mapNodeOSToGOOS os)
                = false)
        ∧ ∀ e, getImageIndexEntryForPlatform manifests arch os = some e →
            platformMatches e (mapNodeArchitectureToGOARCH arch) (mapNodeOSToGOOS os) = true
            ∧ ∃ l1 l2, manifests = l1 ++ e :: l2
              ∧ ∀ m ∈ l1,
                  platformMatches m (mapNodeArchitectureToGOARCH arch) (mapNodeOSToGOOS os)
                    = false) := by
  refine ⟨by decide, by decide, ?_, ?_, ?_⟩
  · intro arch h
    rw [mapNodeArchitectureToGOARCH, if_neg h]
  · intro os h
    rw [mapNodeOSToGOOS, if_neg h]
  · intro manifests arch os
    constructor
    · rw [getImageIndexEntryForPlatform, List.find?_eq_none]
      constructor
      · intro h m hm
        simpa using h m hm
      · intro h m hm
        simp [h m hm]
    · intro e he
      exact find?_first_match he

/-- Witness for C7: an unmapped architecture passes through unchanged, and the
host pair `x64`/`win32` matches an `amd64`/`windows` index entry. -/
theorem c7_platform_selection_witness :
    mapNodeArchitectureToGOARCH (str "arm64") = str "arm64"
    ∧ platformMatches ⟨str "m", 1, str "d", some ⟨str "amd64", str "windows"⟩⟩
        (mapNodeArchitectureToGOARCH (str "x64")) (mapNodeOSToGOOS (str "win32")) = true := by
  refine ⟨c7_platform_selection.2.2.1 (str "arm64") (by decide), ?_⟩
  have h := (c7_platform_selection.2.2.2.2
      [⟨str "m", 1, str "d", some ⟨str "amd64", str "windows"⟩⟩] (str "x64") (str "win32")).2
    ⟨str "m", 1, str "d", some ⟨str "amd64", str "windows"⟩⟩ (by decide)
  exact h.1

theorem firstIndexOf?_eq_none_iff {c : Char} {s : Str} :
    firstIndexOf? c s = none ↔ c ∉ s := by
  induction s with
  | nil => simp [firstIndexOf?]
  | cons x xs ih =>
    rw [firstIndexOf?]
    by_cases hx : x = c
    · subst hx
      simp
    · rw [if_neg hx, Option.map_eq_none', ih]
      constructor
      · intro h hmem
        rcases List.mem_cons.mp hmem with rfl | hm
        · exact hx rfl
        · exact h hm
      · intro h hm
        exact h (List.mem_cons_of_mem x hm)

theorem firstIndexOf_lt_zero_iff {c : Char} {s : Str} :
    firstIndexOf c s < 0 ↔ c ∉ s := by
  constructor
  · intro h
    cases hx : firstIndexOf? c s with
    | none => exact firstIndexOf?_eq_none_iff.mp hx
    | some i =>
      rw [firstIndexOf, hx] at h
      have h' : (i : Int) < 0 := h
      omega
  · intro h
    rw [firstIndexOf, firstIndexOf?_eq_none_iff.mpr h]
    show (-1 : Int) < 0
    decide

/-- Claim C4 (amended): `fetchOCIManifestIfExists` fails outright, regardless of
the response, for every ref whose registry contains no `.` and does not *start
with* `localhost` (the source tests `startsWith`, not equality); every ref whose
registry contains a `.` or starts with `localhost` passes the guard and
proceeds to the manifest request. -/
theorem c4_registry_guard_amended (ref : OCIRef) (res : Response) :
    (('.' ∉ ref.registry ∧ ¬ strStartsWith (str "localhost") ref.registry = true) →
      fetchOCIManifestIfExists ref res = none)
    ∧ (('.' ∈ ref.registry ∨ strStartsWith (str "localhost") ref.registry = true) →
      fetchOCIManifestIfExists ref res = fetchAfterGuard res ref.resource) := by
  constructor
  · rintro ⟨hdot, hls⟩
    rw [fetchOCIManifestIfExists, if_pos]
    rw [Bool.and_eq_true]
    constructor
    · exact decide_eq_true (firstIndexOf_lt_zero_iff.mpr hdot)
    · simpa using hls
  · intro h
    rw [fetchOCIManifestIfExists, if_neg]
    intro hcond
    rw [Bool.and_eq_true] at hcond
    obtain ⟨h1, h2⟩ := hcond
    rcases h with hdot | hls
    · exact absurd hdot (firstIndexOf_lt_zero_iff.mp (of_decide_eq_true h1))
    · rw [Bool.not_eq_true'] at h2
      rw [hls] at h2
      cases h2

/-- Witness for C4 (amended) at a dot-free registry that is not
`localhost`-prefixed: the guard rejects regardless of the response. -/
theorem c4_registry_guard_amended_witness :
    fetchOCIManifestIfExists
      ⟨str "foo", str "a", str "a", str "a/b", str "foo/a/b", str "b",
        str "latest", some (str "latest"), none⟩
      ⟨200, str "0", []⟩ = none :=
  (c4_registry_guard_amended
    ⟨str "foo", str "a", str "a", str "a/b", str "foo/a/b", str "b",
      str "latest", some (str "latest"), none⟩
    ⟨200, str "0", []⟩).1 (by decide)

/-- Claim C1 (amended): when the manifest response carries no content-digest
header under either casing, the computed `contentDigest` is `sha256:` followed
by the hex sha256 of `JSON.stringify` of the *parsed* body — which coincides
with the digest of the exact raw response text precisely when the raw text is
already in canonical stringified form (as `\x7b"a":1\x7d` is). -/
theorem c1_content_digest_amended (res : Response) (resource : Str) (body : JVal)
    (hst : res.statusCode ≤ 299)
    (hp : jsonParse res.resBody = some body)
    (h1 : headerLookup res.resHeaders (str "docker-content-digest") = none)
    (h2 : headerLookup res.resHeaders (str "Docker-Content-Digest") = none) :
    (getManifest res resource).map ManifestContainer.contentDigest
      = some (str "sha256:" ++ sha256hex (jsonStringify body))
    ∧ (jsonStringify body = res.resBody →
        (getManifest res resource).map ManifestContainer.contentDigest
          = some (str "sha256:" ++ sha256hex res.resBody)) := by
  have hjson : getJsonWithMimeType res = some (body, res.resHeaders) := by
    rw [getJsonWithMimeType, if_neg (by omega), hp]
    rfl
  have hmain : (getManifest res resource).map ManifestContainer.contentDigest
      = some (str "sha256:" ++ sha256hex (jsonStringify body)) := by
    rw [getManifest, hjson]
    simp [h1, h2, jsOr, jsTruthy]
  refine ⟨hmain, fun heq => ?_⟩
  rw [hmain, heq]

set_option maxRecDepth 40000 in
/-- Witness for C1 (amended) at the canonical-form body `\x7b"a":1\x7d` with no
digest header: the digest is sha256 of the raw body text. -/
theorem c1_content_digest_amended_witness :
    (getManifest ⟨200, str "\x7b\"a\":1\x7d", []⟩ (str "r")).map
        ManifestContainer.contentDigest
      = some (str "sha256:" ++ sha256hex (str "\x7b\"a\":1\x7d")) := by
  have h := c1_content_digest_amended ⟨200, str "\x7b\"a\":1\x7d", []⟩ (str "r")
    (JVal.jobj [(str "a", JVal.jnum 1)]) (by decide) rfl rfl rfl
  exact h.2 rfl

theorem strLtJS_asymm {a : Str} : ∀ {b : Str}, strLtJS a b = true → strLtJS b a = false := by
  induction a with
  | nil =>
    intro b h
    cases b with
    | nil => cases h
    | cons y ys => rfl
  | cons x xs ih =>
    intro b h
    cases b with
    | nil => cases h
    | cons y ys =>
      rw [strLtJS] at h ⊢
      by_cases hxy : x.toNat < y.toNat
      · rw [if_neg (by omega), if_pos hxy]
      · rw [if_neg hxy] at h
        by_cases hyx : y.toNat < x.toNat
        · rw [if_pos hyx] at h
          cases h
        · rw [if_neg hyx] at h
          rw [if_neg hyx, if_neg hxy]
          exact ih h

theorem strLtJS_connex {a : Str} : ∀ {b : Str}, a ≠ b →
    strLtJS a b = true ∨ strLtJS b a = true := by
  induction a with
  | nil =>
    intro b hne
    cases b with
    | nil => exact absurd rfl hne
    | cons y ys => exact Or.inl rfl
  | cons x xs ih =>
    intro b hne
    cases b with
    | nil => exact Or.inr rfl
    | cons y ys =>
      rcases Nat.lt_trichotomy x.toNat y.toNat with h | h | h
      · left
        rw [strLtJS, if_pos h]
      · have hxy : x = y := char_eq_of_toNat_eq h
        subst hxy
        have hne' : xs ≠ ys := fun he => hne (by rw [he])
        rcases ih hne' with h' | h'
        · left
          rw [strLtJS, if_neg (by omega), if_neg (by omega)]
          exact h'
        · right
          rw [strLtJS, if_neg (by omega), if_neg (by omega)]
          exact h'
      · right
        rw [strLtJS, if_pos h]

theorem strLtJS_trans {a : Str} : ∀ {b c : Str},
    strLtJS a b = true → strLtJS b c = true → strLtJS a c = true := by
  induction a with
  | nil =>
    intro b c h1 h2
    cases c with
    | nil =>
      cases b with
      | nil => cases h2
      | cons y ys => cases h2
    | cons z zs => rfl
  | cons x xs ih =>
    intro b c h1 h2
    cases b with
    | nil => cases h1
    | cons y ys =>
      cases c with
      | nil => cases h2
      | cons z zs =>
        rw [strLtJS] at h1 h2 ⊢
        by_cases hxy : x.toNat < y.toNat
        · by_cases hyz : y.toNat < z.toNat
          · rw [if_pos (by omega)]
          · rw [if_neg hyz] at h2
            by_cases hzy : z.toNat < y.toNat
            · rw [if_pos hzy] at h2
              cases h2
            · rw [if_pos (by omega)]
        · rw [if_neg hxy] at h1
          by_cases hyx : y.toNat < x.toNat
          · rw [if_pos hyx] at h1
            cases h1
          · rw [if_neg hyx] at h1
            by_cases hyz : y.toNat < z.toNat
            · rw [if_pos (by omega)]
            · rw [if_neg hyz] at h2
              by_cases hzy : z.toNat < y.toNat
              · rw [if_pos hzy] at h2
                cases h2
              · rw [if_neg hzy] at h2
                rw [if_neg (by omega), if_neg (by omega)]
                exact ih h1 h2

theorem cmp_le_iff_num {a b : Str} (ha : isNumericStr a = true) (hb : isNumericStr b = true) :
    (compareIdentifiers a b ≤ 0 ↔ natOfDigits a ≤ natOfDigits b) := by
  rw [compareIdentifiers, if_pos (by rw [ha, hb]; rfl)]
  split_ifs <;> omega

theorem cmp_num_nonnum {a b : Str} (ha : isNumericStr a = true) (hb : isNumericStr b = false) :
    compareIdentifiers a b = -1 := by
  have hne : ¬ a = b := fun he => by
    rw [he] at ha
    rw [ha] at hb
    cases hb
  rw [compareIdentifiers, if_neg (by rw [ha, hb]; simp), if_neg hne,
    if_pos (by rw [ha, hb]; rfl)]

theorem cmp_nonnum_num {a b : Str} (ha : isNumericStr a = false) (hb : isNumericStr b = true) :
    compareIdentifiers a b = 1 := by
  have hne : ¬ a = b := fun he => by
    rw [he] at ha
    rw [hb] at ha
    cases ha
  rw [compareIdentifiers, if_neg (by rw [ha, hb]; simp), if_neg hne,
    if_neg (by rw [ha]; simp), if_pos (by rw [ha, hb]; rfl)]

theorem cmp_le_iff_nonnum {a b : Str} (ha : isNumericStr a = false)
    (hb : isNumericStr b = false) :
    (compareIdentifiers a b ≤ 0 ↔ (a = b ∨ strLtJS a b = true)) := by
  rw [compareIdentifiers, if_neg (by rw [ha]; simp)]
  by_cases he : a = b
  · rw [if_pos he]
    simp [he]
  · rw [if_neg he, if_neg (by rw [ha]; simp), if_neg (by rw [hb]; simp)]
    by_cases hlt : strLtJS a b = true
    · rw [if_pos hlt]
      simp [hlt]
    · rw [if_neg hlt]
      simp [he, hlt]

theorem compareIdentifiers_le_total (a b : Str) : cmpLe a b ∨ cmpLe b a := by
  rw [cmpLe, cmpLe]
  cases ha : isNumericStr a <;> cases hb : isNumericStr b
  · by_cases he : a = b
    · exact Or.inl ((cmp_le_iff_nonnum ha hb).mpr (Or.inl he))
    · rcases strLtJS_connex he with h | h
      · exact Or.inl ((cmp_le_iff_nonnum ha hb).mpr (Or.inr h))
      · exact Or.inr ((cmp_le_iff_nonnum hb ha).mpr (Or.inr h))
  · right
    rw [cmp_num_nonnum hb ha]
    decide
  · left
    rw [cmp_num_nonnum ha hb]
    decide
  · rcases Nat.le_total (natOfDigits a) (natOfDigits b) with h | h
    · exact Or.inl ((cmp_le_iff_num ha hb).mpr h)
    · exact Or.inr ((cmp_le_iff_num hb ha).mpr h)

theorem compareIdentifiers_le_trans {a b c : Str}
    (h1 : cmpLe a b) (h2 : cmpLe b c) : cmpLe a c := by
  rw [cmpLe] at h1 h2 ⊢
  cases ha : isNumericStr a <;> cases hb : isNumericStr b
  · -- a, b non-numeric: c must be non-numeric too
    cases hc : isNumericStr c
    · rcases (cmp_le_iff_nonnum ha hb).mp h1 with he | hlt
      · subst he
        exact h2
      · rcases (cmp_le_iff_nonnum hb hc).mp h2 with he | hlt2
        · subst he
          exact (cmp_le_iff_nonnum ha hc).mpr (Or.inr hlt)
        · exact (cmp_le_iff_nonnum ha hc).mpr (Or.inr (strLtJS_trans hlt hlt2))
    · rw [cmp_nonnum_num hb hc] at h2
      omega
  · -- a non-numeric, b numeric: contradiction with h1
    rw [cmp_nonnum_num ha hb] at h1
    omega
  · -- a numeric, b non-numeric: c must be non-numeric
    cases hc : isNumericStr c
    · rw [cmp_num_nonnum ha hc]
      decide
    · rw [cmp_nonnum_num hb hc] at h2
      omega
  · -- a, b numeric
    cases hc : isNumericStr c
    · rw [cmp_num_nonnum ha hc]
      decide
    · have hab := (cmp_le_iff_num ha hb).mp h1
      have hbc := (cmp_le_iff_num hb hc).mp h2
      exact (cmp_le_iff_num ha hc).mpr (Nat.le_trans hab hbc)

instance : IsTotal Str cmpLe := ⟨compareIdentifiers_le_total⟩

instance : IsTrans Str cmpLe := ⟨fun _ _ _ => compareIdentifiers_le_trans⟩

/-- Claim C3 (amended): with `sorted`, `getPublishedVersions` strips the literal
tag `latest`, sorts the remaining tags ascending by `semver.compareIdentifiers`
applied to the whole tag strings (purely numeric tags compare numerically, so
the tag `10` sorts after `2`; all other tags compare by code-unit string order,
so `10.0.0` sorts *before* `2.0.0` — not semantic-version precedence), and puts
`latest` back at the front exactly when it was present. -/
theorem c3_tag_sort_amended (body : Str) (tags : List Str)
    (hp : parseTagList body = some tags) :
    ∃ rest, getPublishedVersions true 200 body
        = some ((if str "latest" ∈ tags then [str "latest"] else []) ++ rest)
      ∧ rest.Perm (tags.filter (fun f => f ≠ str "latest"))
      ∧ List.Sorted cmpLe rest
      ∧ str "latest" ∉ rest := by
  refine ⟨sortTags (tags.filter (fun f => f ≠ str "latest")), ?_,
    List.perm_insertionSort cmpLe _, List.sorted_insertionSort cmpLe _, ?_⟩
  · rw [getPublishedVersions, if_neg (by omega), if_neg (by omega), hp]
    by_cases hmem : str "latest" ∈ tags
    · have hc : tags.contains (str "latest") = true := by
        rw [List.contains]
        exact List.elem_iff.mpr hmem
      rw [if_pos hmem]
      show some (if tags.contains (str "latest") = true then _ else _) = _
      rw [if_pos hc]
      rfl
    · have hc : tags.contains (str "latest") = false := by
        rw [List.contains]
        cases he : tags.elem (str "latest") with
        | false => rfl
        | true => exact absurd (List.elem_iff.mp he) hmem
      rw [if_neg hmem]
      show some (if tags.contains (str "latest") = true then _ else _) = _
      rw [if_neg (by rw [hc]; simp)]
      rfl
  · intro hmem
    have hmf := ((List.perm_insertionSort cmpLe
      (tags.filter (fun f => f ≠ str "latest"))).mem_iff).mp hmem
    rw [List.mem_filter] at hmf
    simp at hmf

/-- Witness for C3 (amended) at the spec's example tag list
`[1.0.0, latest, 1.2.0, 0.9.0]`, together with the concrete sorted output. -/
theorem c3_tag_sort_amended_witness :
    (∃ rest, getPublishedVersions true 200
          (str "\x7b\"tags\":[\"1.0.0\",\"latest\",\"1.2.0\",\"0.9.0\"]\x7d")
        = some ((if str "latest" ∈ [str "1.0.0", str "latest", str "1.2.0", str "0.9.0"]
            then [str "latest"] else []) ++ rest)
      ∧ rest.Perm ([str "1.0.0", str "latest", str "1.2.0", str "0.9.0"].filter
          (fun f => f ≠ str "latest"))
      ∧ List.Sorted cmpLe rest
      ∧ str "latest" ∉ rest)
    ∧ getPublishedVersions true 200
          (str "\x7b\"tags\":[\"1.0.0\",\"latest\",\"1.2.0\",\"0.9.0\"]\x7d")
        = some [str "latest", str "0.9.0", str "1.0.0", str "1.2.0"] :=
  ⟨c3_tag_sort_amended (str "\x7b\"tags\":[\"1.0.0\",\"latest\",\"1.2.0\",\"0.9.0\"]\x7d")
      [str "1.0.0", str "latest", str "1.2.0", str "0.9.0"] (by decide),
    by decide⟩

theorem toLowerStr_append (a b : Str) :
    toLowerStr (a ++ b) = toLowerStr a ++ toLowerStr b := by
  simp [toLowerStr]

theorem toLowerStr_cons (c : Char) (s : Str) :
    toLowerStr (c :: s) = jsToLower c :: toLowerStr s := by
  simp [toLowerStr]

theorem lastIndexOf_eq_of_idx {c : Char} {s : Str} {k : Nat}
    (h : lastIndexOf? c s = some k) : lastIndexOf c s = (k : Int) := by
  rw [lastIndexOf, h]

/-- Claim C5: for every well-formed `registry/ns/id:tag` input — nonempty
lowercase path-grammar segments and a tag matching the restricted-name
grammar — `getRef` succeeds and `resource ++ ":" ++ version` reproduces the
input under case folding. -/
theorem c5_roundtrip (r n i t : Str)
    (hr : segOk r = true) (hn : segOk n = true) (hi : segOk i = true)
    (ht : versionOk t = true) :
    ∃ ref, getRef (r ++ '/' :: n ++ '/' :: i ++ ':' :: t) = some ref
      ∧ ref.resource ++ ':' :: ref.version
          = toLowerStr (r ++ '/' :: n ++ '/' :: i ++ ':' :: t) := by
  obtain ⟨t', ht'⟩ : ∃ t', toLowerStr t = t' := ⟨toLowerStr t, rfl⟩
  have hvt' : versionOk t' = true := ht' ▸ versionOk_toLower ht
  have htne' : t' ≠ [] := versionOk_ne_nil hvt'
  have hrn : ∀ c ∈ r, c ≠ '@' ∧ c ≠ ':' ∧ c ≠ '/' :=
    fun c hc => segChar_ne (segOk_chars hr c hc)
  have hnn : ∀ c ∈ n, c ≠ '@' ∧ c ≠ ':' ∧ c ≠ '/' :=
    fun c hc => segChar_ne (segOk_chars hn c hc)
  have hin : ∀ c ∈ i, c ≠ '@' ∧ c ≠ ':' ∧ c ≠ '/' :=
    fun c hc => segChar_ne (segOk_chars hi c hc)
  have htn : ∀ c ∈ t', c ≠ '@' ∧ c ≠ ':' ∧ c ≠ '/' :=
    fun c hc => isVersionTail_ne (versionOk_chars hvt' c hc)
  have hsl : jsToLower '/' = '/' := by decide
  have hcl : jsToLower ':' = ':' := by decide
  have hlow : toLowerStr (r ++ '/' :: n ++ '/' :: i ++ ':' :: t)
      = r ++ '/' :: n ++ '/' :: i ++ ':' :: t' := by
    simp only [toLowerStr_append, toLowerStr_cons, hsl, hcl]
    rw [toLowerStr_fix_of_segOk hr, toLowerStr_fix_of_segOk hn,
      toLowerStr_fix_of_segOk hi, ht']
  have hat_nm : '@' ∉ r ++ '/' :: n ++ '/' :: i ++ ':' :: t' := by
    intro hmem
    rcases List.mem_append.mp hmem with hmem | h
    · rcases List.mem_append.mp hmem with hmem | h
      · rcases List.mem_append.mp hmem with h | h
        · exact (hrn '@' h).1 rfl
        · rcases List.mem_cons.mp h with he | h
          · exact absurd he (by decide)
          · exact (hnn '@' h).1 rfl
      · rcases List.mem_cons.mp h with he | h
        · exact absurd he (by decide)
        · exact (hin '@' h).1 rfl
    · rcases List.mem_cons.mp h with he | h
      · exact absurd he (by decide)
      · exact (htn '@' h).1 rfl
  have hcolon_t' : ':' ∉ t' := fun hm => (htn ':' hm).2.1 rfl
  have hslash_ct' : '/' ∉ ':' :: t' := by
    intro hm
    rcases List.mem_cons.mp hm with he | hm
    · exact absurd he (by decide)
    · exact (htn '/' hm).2.2 rfl
  have hslash_r : '/' ∉ r := fun hm => (hrn '/' hm).2.2 rfl
  have hslash_n : '/' ∉ n := fun hm => (hnn '/' hm).2.2 rfl
  have hslash_i : '/' ∉ i := fun hm => (hin '/' hm).2.2 rfl
  have hat_idx : lastIndexOf '@' (r ++ '/' :: n ++ '/' :: i ++ ':' :: t') = -1 :=
    lastIndexOf_eq_neg_one_iff.mpr hat_nm
  have hcolon_idx : lastIndexOf? ':' (r ++ '/' :: n ++ '/' :: i ++ ':' :: t')
      = some ((r ++ '/' :: n) ++ '/' :: i).length :=
    lastIndexOf?_append_cons _ hcolon_t'
  have hslash_idx : lastIndexOf? '/' (r ++ '/' :: n ++ '/' :: i ++ ':' :: t')
      = some (r ++ '/' :: n).length := by
    rw [lastIndexOf?_append_of_not_mem _ hslash_ct']
    exact lastIndexOf?_append_cons _ hslash_i
  have hcolonL : lastIndexOf ':' (r ++ '/' :: n ++ '/' :: i ++ ':' :: t')
      = (((r ++ '/' :: n) ++ '/' :: i).length : Int) := lastIndexOf_eq_of_idx hcolon_idx
  have hslashL : lastIndexOf '/' (r ++ '/' :: n ++ '/' :: i ++ ':' :: t')
      = ((r ++ '/' :: n).length : Int) := lastIndexOf_eq_of_idx hslash_idx
  have htake : (r ++ '/' :: n ++ '/' :: i ++ ':' :: t').take
      (((r ++ '/' :: n) ++ '/' :: i).length) = (r ++ '/' :: n) ++ '/' :: i :=
    List.take_left _ _
  have hdrop : (r ++ '/' :: n ++ '/' :: i ++ ':' :: t').drop
      (((r ++ '/' :: n) ++ '/' :: i).length + 1) = t' := by
    rw [show ((r ++ '/' :: n) ++ '/' :: i).length + 1
        = (((r ++ '/' :: n) ++ '/' :: i) ++ [':']).length by
      simp only [List.length_append, List.length_cons, List.length_nil]]
    rw [show ((r ++ '/' :: n) ++ '/' :: i) ++ ':' :: t'
        = (((r ++ '/' :: n) ++ '/' :: i) ++ [':']) ++ t' by simp]
    exact List.drop_left _ _
  have hsv : splitVersion (r ++ '/' :: n ++ '/' :: i ++ ':' :: t')
      = some ((r ++ '/' :: n) ++ '/' :: i, some t', none) := by
    rw [splitVersion, if_neg (by rw [hat_idx]; simp)]
    rw [if_neg ?cond]
    case cond =>
      rw [hcolonL, hslashL]
      simp only [List.length_append, List.length_cons]
      omega
    rw [hcolonL]
    simp only [Int.toNat_natCast]
    rw [htake, hdrop]
  have hsplit3 : splitOnChar '/' ((r ++ '/' :: n) ++ '/' :: i) = [r, n, i] := by
    rw [show (r ++ '/' :: n) ++ '/' :: i = r ++ '/' :: (n ++ '/' :: i) by simp]
    rw [splitOnChar_append_cons hslash_r, splitOnChar_append_cons hslash_n,
      splitOnChar_of_not_mem hslash_i]
  have hpOk : pathOk (n ++ '/' :: i) = true := by
    rw [pathOk, splitOnChar_append_cons hslash_n, splitOnChar_of_not_mem hslash_i]
    simp [hn, hi]
  refine ⟨⟨r, n, n, n ++ '/' :: i, (r ++ '/' :: n) ++ '/' :: i, i, t', some t', none⟩,
    ?_, ?_⟩
  · simp only [getRef, hlow, hsv]
    rw [if_neg (by simp [jsTruthy, hvt'])]
    rw [hsplit3]
    rw [if_neg ?hpathneg]
    case hpathneg =>
      have h2 : joinSlash ([r, n, i].drop 1).dropLast
          ++ '/' :: [r, n, i].getD ([r, n, i].length - 1) [] = n ++ '/' :: i := rfl
      rw [h2]
      simp [hpOk]
    simp [jsOr, jsTruthy, htne', joinSlash]
  · show ((r ++ '/' :: n) ++ '/' :: i) ++ ':' :: t'
      = toLowerStr (r ++ '/' :: n ++ '/' :: i ++ ':' :: t)
    rw [hlow]

/-- Witness for C5 at the concrete input `ghcr.io/org/feat:1.0.0`. -/
theorem c5_roundtrip_witness :
    ∃ ref, getRef (str "ghcr.io" ++ '/' :: str "org" ++ '/' :: str "feat"
        ++ ':' :: str "1.0.0") = some ref
      ∧ ref.resource ++ ':' :: ref.version
          = toLowerStr (str "ghcr.io" ++ '/' :: str "org" ++ '/' :: str "feat"
              ++ ':' :: str "1.0.0") :=
  c5_roundtrip (str "ghcr.io") (str "org") (str "feat") (str "1.0.0")
    (by decide) (by decide) (by decide) (by decide)

end ContainerCollectionsOCI

